import Mathlib

/-!
Shallow embedding of the scalex singly-linked list containers:

* `lock_free_impl.hpp` — a lock-free list whose node links carry a one-bit
  "logically deleted" mark.  Sequential (single-thread) execution is embedded:
  every atomic mark / compare-exchange is evaluated against the current state,
  and a retry loop whose body does not change the state before retrying is
  modelled as divergence (`none`).  Node identity is positional: sequentially,
  a compare-exchange on a predecessor link succeeds exactly when the link
  still targets the traversal's current node and the link's mark bit is unset,
  which the embedding tracks explicitly.

* `global_lock_impl.hpp` — the globally locked baseline.  Under the lock every
  operation is sequential, so the lock itself needs no model; node identity is
  tracked by an allocation id because `tail_` aliases a node by pointer.

`assert`-guarded preconditions are modelled as `none` (fail-fast contract
violations, spec §7).
-/

/-- A physical node of the lock-free chain: `node::value_` together with the
mark bit of the node's outgoing `next_` link (`node::is_marked()` reads
`next_.get_mark()`), from `src/lock_free_impl.hpp` lines 32–56. -/
structure LFCell (α : Type) where
  value : α
  mark : Bool
deriving DecidableEq, Repr

/-- State of a `lock_free_impl` list: the mark bit of the sentinel head
node's `next_` link, plus the chain of physical nodes reachable from the
sentinel, in link order.  `head_` always points to the sentinel
(`src/lock_free_impl.hpp` line 58). -/
structure LFState (α : Type) where
  sentinelMark : Bool
  nodes : List (LFCell α)
deriving DecidableEq, Repr

variable {α : Type}

/-- `lock_free_impl() : head_(new node) {}` (line 116): a fresh sentinel with
an unmarked, null `next_` link and no chain. -/
def lfInit : LFState α := ⟨false, []⟩

/-- `lock_free_impl::size` (lines 118–131).  `assert(!head_->is_marked())` is
a fail-fast precondition (`none`).  The source line 126 reads
`if (!cur->is_marked());` — the conditional guards an empty statement (stray
semicolon), so `ret++` on line 127 executes for every physical node, marked
or not: the function returns the length of the physical chain. -/
def lfSize (s : LFState α) : Option Nat :=
  if s.sentinelMark then none else some s.nodes.length

/-- `lock_free_impl::front` (lines 133–148): `assert(!head_->is_marked())`
and `assert(p)` are preconditions; if the first physical node is marked, the
code takes `goto retry` without having changed any state, so a sequential
execution loops forever — modelled as `none`.  Otherwise the re-check of the
mark reads the same (unmarked) value and the first node's value is returned. -/
def lfFront (s : LFState α) : Option α :=
  if s.sentinelMark then none
  else
    match s.nodes with
    | [] => none
    | c :: _ => if c.mark then none else some c.value

/-- `lock_free_impl::pop_front` (lines 167–186).  Preconditions
`assert(!head_->is_marked())` and `assert(cur)`.  If `cur->next_.mark()`
fails (first node already marked) the code retries with unchanged state —
sequential divergence, `none`.  On success the first node's link is marked,
the sentinel's link is assigned `cur->next_` (plain assignment drops the mark
bit), and the node is handed to `scoper.release` with its link marked; the
released cell (with its mark at release time) is returned alongside the new
state. -/
def lfPopFront (s : LFState α) : Option (LFState α × LFCell α) :=
  if s.sentinelMark then none
  else
    match s.nodes with
    | [] => none
    | c :: rest => if c.mark then none else some (⟨false, rest⟩, ⟨c.value, true⟩)

/-- `lock_free_impl::push_back` (lines 188–201): traverse to the last
physical node; the new node is constructed with a null, unmarked link; the
`compare_exchange_strong` on the last link succeeds iff that link is still
(null, unmarked).  The last link is the sentinel's own link when the chain is
empty, else the last cell's link; a marked last link makes the CAS fail with
unchanged state, so the sequential retry loops forever (`none`). -/
def lfPushBack (v : α) (s : LFState α) : Option (LFState α) :=
  if s.sentinelMark then none
  else
    match s.nodes.getLast? with
    | none => some ⟨false, [⟨v, false⟩]⟩
    | some c => if c.mark then none else some ⟨s.sentinelMark, s.nodes ++ [⟨v, false⟩]⟩

/-- Traversal body of `lock_free_impl::remove` (lines 203–226), executed
sequentially from the cell list the predecessor link `pp` currently targets.
`pp = some m` models the aligned situation where `*pp` still points at the
current node `p` and carries mark bit `m`; `pp = none` models the lagging
situation after a failed unlink, where `*pp` points at an earlier
still-linked marked node, so a `compare_exchange_strong` whose expected
pointer is the current node cannot succeed.  A matching node is unlinked and
released only when its own link's `mark()` transition succeeds (its mark was
unset) and the CAS on `*pp` succeeds (aligned with unmarked link); otherwise
it stays physically linked with its link marked, and `pp` lags.  A
non-matching node realigns `pp` onto its own link (`pp = &p->next_`).
Returns the chain as left in memory and the cells passed to
`scoper.release`, in release order, with their marks at release time. -/
def lfRemoveGo (val : α) [DecidableEq α] : Option Bool → List (LFCell α) → List (LFCell α) × List (LFCell α)
  | _, [] => ([], [])
  | pp, c :: rest =>
    if c.value = val then
      if c.mark = false ∧ pp = some false then
        let r := lfRemoveGo val (some false) rest
        (r.1, ⟨c.value, true⟩ :: r.2)
      else
        let r := lfRemoveGo val none rest
        (⟨c.value, true⟩ :: r.1, r.2)
    else
      let r := lfRemoveGo val (some c.mark) rest
      (c :: r.1, r.2)

/-- `lock_free_impl::remove` (lines 203–226): the traversal starts with
`pp = &head_->next_` (the sentinel's link, aligned) and `p = head_->next_`.
The sentinel's own mark bit is never written (the CAS installs its pointer
with the mark unset, and it can only succeed when that mark was already
unset). -/
def lfRemove (val : α) [DecidableEq α] (s : LFState α) : LFState α × List (LFCell α) :=
  let r := lfRemoveGo val (some s.sentinelMark) s.nodes
  (⟨s.sentinelMark, r.1⟩, r.2)

/-- Values yielded by `for (it = begin(); it != end(); ++it)` starting from
the iterator position holding the given physical suffix (a null `node_` —
the empty suffix — is `end()`, lines 79–89, 235–239).  The loop yields
`*it = node_->value_` at every position, and `operator++` (lines 91–98) does
`node_ = node_->next_` once and then keeps advancing while the current node
is non-null and marked. -/
def lfIterCollect : List (LFCell α) → List α
  | [] => []
  | c :: rest => c.value :: lfIterCollect (rest.dropWhile LFCell.mark)
termination_by l => l.length
decreasing_by
  simp only [List.length_cons]
  exact Nat.lt_succ_of_le (List.IsSuffix.sublist (List.dropWhile_suffix _)).length_le

/-- Full forward iteration of `lock_free_impl`: `begin()` (lines 228–233) is
`iterator_(head_->next_)` — the first physical node, with no mark check —
and `end()` is the null iterator. -/
def lfIterate (s : LFState α) : List α :=
  lfIterCollect s.nodes

/-- Modelled from the spec: `atomic_reference.hpp` (`atomic_ref_ptr`,
`atomic_ref_counted`) is not under `src/`.  Per spec §6, node storage is
freed when its reference count reaches zero; destroying the list destroys
`head_`'s reference to the sentinel (its only holder) and, through the
cascade of `next_` references, every physical chain node.  This lists, in
destruction order, the `next_` link mark of every node whose destructor
`node::~node` — which executes `assert(next_.get_mark())`
(`src/lock_free_impl.hpp` lines 42–46) — then runs. -/
def lfDestructMarks (s : LFState α) : List Bool :=
  s.sentinelMark :: s.nodes.map LFCell.mark

/-- A node of the globally locked list (`src/global_lock_impl.hpp` lines
26–38): `value_` plus an allocation identity.  The identity stands for the
node's address: `tail_` aliases a node by pointer, so value equality alone
cannot express "tail_ is this node".  The `next_` pointer is represented by
adjacency in `GLState.chain` (a node's `next_` is null exactly when it is the
chain's last element). -/
structure GLNode (α : Type) where
  id : Nat
  value : α
deriving DecidableEq, Repr

/-- State of a `global_lock_impl` list: `chain` is the node sequence
reachable from `head_` (so `head_` is null iff `chain = []`), `tail` is the
id of the node `tail_` points to (`none` = null), and `fresh` is the
allocator counter handing out node identities. -/
structure GLState (α : Type) where
  chain : List (GLNode α)
  tail : Option Nat
  fresh : Nat
deriving DecidableEq, Repr

/-- `global_lock_impl() : mutex_(), head_(), tail_() {}` (line 98). -/
def glInit : GLState α := ⟨[], none, 0⟩

/-- `global_lock_impl::size` (lines 100–111): counts every node reachable
from `head_`. -/
def glSize (s : GLState α) : Nat :=
  s.chain.length

/-- `global_lock_impl::front` (lines 113–119): `assert(head_)` then
`head_->value_`. -/
def glFront (s : GLState α) : Option α :=
  s.chain.head?.map GLNode.value

/-- `global_lock_impl::back` (lines 127–134): `assert(tail_)`,
`assert(!tail_->next_)`, then `tail_->value_` — the cached `tail_` pointer is
read directly, with no traversal.  The only tracked node with a null `next_`
is the chain's last element; a state where `tail_` aliases a node that is not
the chain's last (never reachable, see `glRunSeq_wf`) yields `none`. -/
def glBack (s : GLState α) : Option α :=
  match s.tail with
  | none => none
  | some t =>
    match s.chain.getLast? with
    | none => none
    | some c => if c.id = t then some c.value else none

/-- `global_lock_impl::pop_front` (lines 142–151): `assert(head_)`;
`head_ = head_->next_`; if `head_` became null, `tail_.reset()`. -/
def glPopFront (s : GLState α) : Option (GLState α) :=
  match s.chain with
  | [] => none
  | _ :: rest => some ⟨rest, if rest.isEmpty then none else s.tail, s.fresh⟩

/-- The chain prefix up to and including the node with id `t` — what stays
reachable from `head_` after writing `tail_->next_` when `tail_` points to
the node with id `t` inside the chain. -/
def glTakeThrough (t : Nat) : List (GLNode α) → List (GLNode α)
  | [] => []
  | c :: rest => if c.id = t then [c] else c :: glTakeThrough t rest

/-- `global_lock_impl::push_back` (lines 153–165): allocate node `n` with a
null `next_`.  If `tail_` is null, `assert(!head_)` (precondition) and
`head_ = tail_ = n`.  Otherwise `tail_->next_ = n; tail_ = n`: when `tail_`
points into the head chain this attaches `n` after it (dropping whatever
followed — nothing follows in reachable states, where `tail_` is the last
chain node); if `tail_` aliased a node outside the chain, the write happens
off-chain and only `tail_` changes. -/
def glPushBack (v : α) (s : GLState α) : Option (GLState α) :=
  match s.tail with
  | none =>
    if s.chain.isEmpty then some ⟨[⟨s.fresh, v⟩], some s.fresh, s.fresh + 1⟩ else none
  | some t =>
    if (s.chain.map GLNode.id).contains t then
      some ⟨glTakeThrough t s.chain ++ [⟨s.fresh, v⟩], some s.fresh, s.fresh + 1⟩
    else
      some ⟨s.chain, some s.fresh, s.fresh + 1⟩

/-- Loop body of `global_lock_impl::remove` (lines 167–187).  `prev` is the
last node kept so far (the source's `prev`, initially null); a matching node
is unlinked (`*pp = p->next_`), and when the unlink empties `*pp` — i.e. the
matching node was the physically last one — `tail_ = prev` is recorded and
the loop ends.  A non-matching node becomes the new `prev`.  Returns the
remaining chain and `some t` when the loop executed `tail_ = t` (`none` when
it never touched `tail_`). -/
def glRemoveGo (val : α) [DecidableEq α] : Option Nat → List (GLNode α) → List (GLNode α) × Option (Option Nat)
  | _, [] => ([], none)
  | prev, c :: rest =>
    if c.value = val then
      if rest.isEmpty then ([], some prev)
      else glRemoveGo val prev rest
    else
      let r := glRemoveGo val (some c.id) rest
      (c :: r.1, r.2)

/-- `global_lock_impl::remove` (lines 167–187): run the loop from
`pp = &head_`, `p = head_`, `prev` null; `tail_` is overwritten only when the
loop's `if (!*pp) tail_ = prev` fired. -/
def glRemove (val : α) [DecidableEq α] (s : GLState α) : GLState α :=
  let r := glRemoveGo val none s.chain
  ⟨r.1, r.2.getD s.tail, s.fresh⟩

/-- `global_lock_impl::try_pop_front` (lines 189–203): on a null `head_`,
`assert(!tail_)` (precondition) and return `(false, T())`; otherwise return
`(true, head_->value_)` and pop exactly as `pop_front` does. -/
def glTryPopFront [Inhabited α] (s : GLState α) : Option (Bool × α × GLState α) :=
  match s.chain with
  | [] => if s.tail = none then some (false, default, s) else none
  | c :: rest =>
    some (true, c.value, ⟨rest, if rest.isEmpty then none else s.tail, s.fresh⟩)

/-- Values yielded by `for (it = begin(); it != end(); ++it)` on the locked
list: `begin()` is `iterator_(lock, head_)` (lines 205–209), `operator++`
follows `next_` (lines 75–80), `end()` is the null iterator. -/
def glIterCollect : List (GLNode α) → List α
  | [] => []
  | c :: rest => c.value :: glIterCollect rest

/-- Repeatedly call `try_pop_front` until it reports `found = false`,
collecting the popped values (spec §8 round-trip drain loop). -/
def glDrain [Inhabited α] (s : GLState α) : List α :=
  match h : glTryPopFront s with
  | some (true, v, s') => v :: glDrain s'
  | _ => []
termination_by s.chain.length
decreasing_by
  rcases s with ⟨chain, tail, fresh⟩
  cases chain with
  | nil =>
    simp only [glTryPopFront] at h
    split at h <;> simp_all
  | cons c rest =>
    simp only [glTryPopFront, Option.some.injEq, Prod.mk.injEq] at h
    obtain ⟨-, -, h₂⟩ := h
    subst h₂
    simp

/-- One operation of the shared container interface named by the spec:
`size`, `front`, `back`, `pop_front`, `push_back`, `remove`, forward
iteration. -/
inductive ListOp (α : Type) where
  | size
  | front
  | back
  | popFront
  | pushBack (v : α)
  | removeOp (v : α)
  | iterate
deriving DecidableEq, Repr

/-- Observable result of one operation: a count (`size`), a read value
(`front`/`back`), a yielded iteration sequence, or nothing (`void`
mutators). -/
inductive Obs (α : Type) where
  | count (n : Nat)
  | val (v : α)
  | seq (l : List α)
  | unit
deriving DecidableEq, Repr

/-- Run one operation on a `global_lock_impl` list: the observation plus the
resulting state; `none` on a fail-fast precondition violation. -/
def glStep [DecidableEq α] [Inhabited α] : ListOp α → GLState α → Option (Obs α × GLState α)
  | .size, s => some (.count (glSize s), s)
  | .front, s => (glFront s).map fun v => (.val v, s)
  | .back, s => (glBack s).map fun v => (.val v, s)
  | .popFront, s => (glPopFront s).map fun s' => (.unit, s')
  | .pushBack v, s => (glPushBack v s).map fun s' => (.unit, s')
  | .removeOp v, s => some (.unit, glRemove v s)
  | .iterate, s => some (.seq (glIterCollect s.chain), s)

/-- Run one operation on a `lock_free_impl` list.  `lock_free_impl` declares
no `back()` member (its public surface in `src/lock_free_impl.hpp` is `size`,
`front`, `pop_front`, `push_back`, `remove`, `begin`/`end` only), so `back`
has no behaviour: `none`. -/
def lfStep [DecidableEq α] : ListOp α → LFState α → Option (Obs α × LFState α)
  | .size, s => (lfSize s).map fun n => (.count n, s)
  | .front, s => (lfFront s).map fun v => (.val v, s)
  | .back, _ => none
  | .popFront, s => (lfPopFront s).map fun r => (.unit, r.1)
  | .pushBack v, s => (lfPushBack v s).map fun s' => (.unit, s')
  | .removeOp v, s => some (.unit, (lfRemove v s).1)
  | .iterate, s => some (.seq (lfIterate s), s)

/-- Run a sequence of interface operations on the locked list, collecting
the observations; `none` as soon as one operation violates its
precondition. -/
def glRunSeq [DecidableEq α] [Inhabited α] : List (ListOp α) → GLState α → Option (List (Obs α) × GLState α)
  | [], s => some ([], s)
  | op :: ops, s =>
    (glStep op s).bind fun r =>
      (glRunSeq ops r.2).map fun t => (r.1 :: t.1, t.2)

/-- Run a sequence of interface operations on the lock-free list, collecting
the observations. -/
def lfRunSeq [DecidableEq α] : List (ListOp α) → LFState α → Option (List (Obs α) × LFState α)
  | [], s => some ([], s)
  | op :: ops, s =>
    (lfStep op s).bind fun r =>
      (lfRunSeq ops r.2).map fun t => (r.1 :: t.1, t.2)

/-- Logical contents of a locked list: the values reachable from `head_`. -/
def glAbs (s : GLState α) : List α :=
  s.chain.map GLNode.value

/-- Logical contents of a lock-free list: the values of the physically
reachable nodes whose outgoing link is not marked (a marked node is
logically absent even while physically reachable, spec §3). -/
def lfAbs (s : LFState α) : List α :=
  (s.nodes.filter fun c => !c.mark).map LFCell.value

/-- Sequential cleanliness of a lock-free list state: the sentinel's link is
unmarked and no physically reachable node is marked.  Sequential executions
unlink every node in the same operation that marks it, so every reachable
state is clean. -/
def lfClean (s : LFState α) : Prop :=
  s.sentinelMark = false ∧ ∀ c ∈ s.nodes, c.mark = false

/-- Well-formedness of a locked list state: node identities are distinct and
below the allocator counter, and `tail_` points exactly at the last node
reachable from `head_` (null iff the chain is empty). -/
def glWF (s : GLState α) : Prop :=
  (s.chain.map GLNode.id).Nodup ∧
  (∀ c ∈ s.chain, c.id < s.fresh) ∧
  s.tail = (s.chain.getLast?).map GLNode.id

/-- Simulation relation for the sequential equivalence of the two
implementations: both sides well formed and holding the same values in the
same order. -/
def SimRel (g : GLState α) (l : LFState α) : Prop :=
  glWF g ∧ lfClean l ∧ g.chain.map GLNode.value = l.nodes.map LFCell.value

/-- Lock-step matching of one operation's outcomes on the two
implementations: both fail, or both succeed with the same observation and
related successor states. -/
def OptSim [DecidableEq α] (x : Option (Obs α × GLState α)) (y : Option (Obs α × LFState α)) : Prop :=
  match x, y with
  | none, none => True
  | some (o, g), some (o', l) => o = o' ∧ SimRel g l
  | _, _ => False

/-- Build a locked list from the value sequence `S` by repeated `push_back`
starting from a fresh empty list (spec §8 round-trip). -/
def glPushSeq (S : List α) : Option (GLState α) :=
  S.foldlM (fun s v => glPushBack v s) glInit

/-- Lock-step matching of whole runs: both runs fail at the same point, or
both succeed with identical observation sequences and related final
states. -/
def RunSim [DecidableEq α] (x : Option (List (Obs α) × GLState α))
    (y : Option (List (Obs α) × LFState α)) : Prop :=
  match x, y with
  | none, none => True
  | some (os, g), some (os', l) => os = os' ∧ SimRel g l
  | _, _ => False

/-- One operation of the full public surface of `global_lock_impl`:
`size`, `front`, `back`, `pop_front`, `push_back`, `remove`,
`try_pop_front` and forward iteration.  (`try_pop_front` is absent from the
shared `ListOp` alphabet because `lock_free_impl` does not provide it; the
locked list's own invariant must nevertheless be preserved by it.) -/
inductive GLOp (α : Type) where
  | size
  | front
  | back
  | popFront
  | pushBack (v : α)
  | removeOp (v : α)
  | tryPopFront
  | iterate
deriving DecidableEq, Repr

/-- State transition of one full-surface `global_lock_impl` operation:
`size` and iteration read under the lock and never mutate; `front`/`back`
mutate nothing and fail exactly on their precondition; the mutators
transition as embedded above (`try_pop_front` keeps only the resulting
state, dropping the returned flag/value pair). -/
def glStepFull [DecidableEq α] [Inhabited α] : GLOp α → GLState α → Option (GLState α)
  | .size, s => some s
  | .front, s => (glFront s).map fun _ => s
  | .back, s => (glBack s).map fun _ => s
  | .popFront, s => glPopFront s
  | .pushBack v, s => glPushBack v s
  | .removeOp v, s => some (glRemove v s)
  | .tryPopFront, s => (glTryPopFront s).map fun r => r.2.2
  | .iterate, s => some s

/-- Run a sequence of full-surface operations on the locked list; `none` as
soon as one operation violates its precondition. -/
def glRunFull [DecidableEq α] [Inhabited α] : List (GLOp α) → GLState α → Option (GLState α)
  | [], s => some s
  | op :: ops, s => (glStepFull op s).bind (glRunFull ops)

theorem mem_of_getLast?_eq_some {l : List α} {c : α} (h : l.getLast? = some c) : c ∈ l := by
  obtain ⟨h', rfl⟩ := List.mem_getLast?_eq_getLast (show c ∈ l.getLast? from h)
  exact List.getLast_mem h'

theorem getLast?_filter_of_getLast? (p : α → Bool) {l : List α} {c : α}
    (h : l.getLast? = some c) (hp : p c = true) :
    (l.filter p).getLast? = some c := by
  induction l with
  | nil => simp at h
  | cons d rest ih =>
    cases rest with
    | nil =>
      simp only [List.getLast?_singleton, Option.some.injEq] at h
      subst h
      simp [List.filter_cons, hp]
    | cons e rest' =>
      rw [List.getLast?_cons_cons] at h
      have hr := ih h
      by_cases hd : p d = true
      · rw [List.filter_cons, if_pos hd, List.getLast?_cons, hr]
        simp
      · rw [List.filter_cons, if_neg (by simp [hd])]
        exact hr

/-- Characterization of the `global_lock_impl::remove` loop: the surviving
chain is the non-matching nodes in order, and `tail_ = prev` is executed
exactly when the chain's physically last node matches, in which case `prev`
is the id of the last surviving node of this segment (or the incoming `prev`
when none survives). -/
theorem glRemoveGo_spec [DecidableEq α] (val : α) (l : List (GLNode α)) (prev : Option Nat) :
    glRemoveGo val prev l =
      (l.filter fun c => !(c.value == val),
       match l.getLast? with
       | none => none
       | some c =>
         if c.value = val then
           some (((((l.filter fun c => !(c.value == val)).getLast?).map fun k =>
             some k.id).getD prev))
         else none) := by
  induction l generalizing prev with
  | nil => simp [glRemoveGo]
  | cons d rest ih =>
    by_cases hv : d.value = val
    · cases rest with
      | nil => simp [glRemoveGo, hv]
      | cons e rest' =>
        have hstep : glRemoveGo val prev (d :: e :: rest') = glRemoveGo val prev (e :: rest') := by
          rw [glRemoveGo, if_pos hv, if_neg (by simp)]
        rw [hstep, ih prev]
        simp [List.filter_cons, hv, List.getLast?_cons_cons]
    · cases rest with
      | nil => simp [glRemoveGo, hv]
      | cons e rest' =>
        have hstep : glRemoveGo val prev (d :: e :: rest') =
            (d :: (glRemoveGo val (some d.id) (e :: rest')).1,
             (glRemoveGo val (some d.id) (e :: rest')).2) := by
          rw [glRemoveGo, if_neg hv]
        rw [hstep, ih (some d.id)]
        rcases hlast : (e :: rest').getLast? with - | c
        · simp at hlast
        · rw [List.getLast?_cons_cons, hlast]
          by_cases hcv : c.value = val
          · simp only [hcv, if_pos, Prod.mk.injEq]
            constructor
            · simp [List.filter_cons, hv]
            · rcases hfl : ((e :: rest').filter fun c => !(c.value == val)).getLast? with - | k
              · have hemp : ((e :: rest').filter fun c => !(c.value == val)) = [] :=
                  List.getLast?_eq_none_iff.mp hfl
                simp [List.filter_cons, hv, hemp, List.getLast?_cons, hfl]
              · simp [List.filter_cons, hv, List.getLast?_cons, hfl]
          · simp [hcv, List.filter_cons, hv]

theorem glRemove_chain [DecidableEq α] (val : α) (s : GLState α) :
    (glRemove val s).chain = s.chain.filter fun c => !(c.value == val) := by
  simp [glRemove, glRemoveGo_spec]

theorem glRemove_wf [DecidableEq α] (val : α) (s : GLState α) (h : glWF s) :
    glWF (glRemove val s) := by
  obtain ⟨hnd, hbound, htail⟩ := h
  refine ⟨?_, ?_, ?_⟩
  · rw [glRemove_chain]
    exact hnd.sublist ((List.filter_sublist _).map _)
  · intro c hc
    rw [glRemove_chain] at hc
    exact hbound c (List.mem_of_mem_filter hc)
  · rcases hlast : s.chain.getLast? with - | c
    · have hnil : s.chain = [] := List.getLast?_eq_none_iff.mp hlast
      simp [glRemove, glRemoveGo_spec, hnil, htail]
    · by_cases hcv : c.value = val
      · simp only [glRemove, glRemoveGo_spec, hlast, hcv, if_pos]
        rcases hfl : (s.chain.filter fun c => !(c.value == val)).getLast? with - | k
        · simp [hfl]
        · simp [hfl]
      · have hfl : (s.chain.filter fun c => !(c.value == val)).getLast? = some c :=
          getLast?_filter_of_getLast? _ hlast (by simp [hcv])
        simp [glRemove, glRemoveGo_spec, hlast, hcv, htail, hfl]

theorem glPopFront_wf {s s' : GLState α} (h : glWF s) (hp : glPopFront s = some s') :
    glWF s' := by
  obtain ⟨hnd, hbound, htail⟩ := h
  rcases s with ⟨chain, tail, fresh⟩
  cases chain with
  | nil => simp [glPopFront] at hp
  | cons c rest =>
    simp only [glPopFront, Option.some.injEq] at hp
    subst hp
    refine ⟨?_, ?_, ?_⟩
    · simp only [List.map_cons, List.nodup_cons] at hnd
      exact hnd.2
    · intro d hd
      exact hbound d (List.mem_cons_of_mem _ hd)
    · cases rest with
      | nil => simp
      | cons e rest' =>
        rw [List.getLast?_cons_cons] at htail
        simpa using htail

theorem glTakeThrough_last {l : List (GLNode α)} {c : GLNode α}
    (hnd : (l.map GLNode.id).Nodup) (hlast : l.getLast? = some c) :
    glTakeThrough c.id l = l := by
  induction l with
  | nil => simp at hlast
  | cons d rest ih =>
    cases rest with
    | nil =>
      simp only [List.getLast?_singleton, Option.some.injEq] at hlast
      subst hlast
      simp [glTakeThrough]
    | cons e rest' =>
      rw [List.getLast?_cons_cons] at hlast
      have hmem : c ∈ e :: rest' := mem_of_getLast?_eq_some hlast
      simp only [List.map_cons, List.nodup_cons] at hnd
      have hne : ¬d.id = c.id := by
        intro hEq
        exact hnd.1 (hEq ▸ List.mem_map_of_mem GLNode.id hmem)
      rw [glTakeThrough, if_neg hne,
        ih (by simpa using hnd.2) hlast]

theorem glPushBack_eq (v : α) (s : GLState α) (h : glWF s) :
    glPushBack v s = some ⟨s.chain ++ [⟨s.fresh, v⟩], some s.fresh, s.fresh + 1⟩ := by
  obtain ⟨hnd, hbound, htail⟩ := h
  rcases hlast : s.chain.getLast? with - | c
  · have hnil : s.chain = [] := List.getLast?_eq_none_iff.mp hlast
    rw [hlast] at htail
    simp [glPushBack, htail, hnil]
  · have hmem : c ∈ s.chain := mem_of_getLast?_eq_some hlast
    have hcont : (s.chain.map GLNode.id).contains c.id = true :=
      List.elem_eq_true_of_mem (List.mem_map_of_mem GLNode.id hmem)
    rw [hlast] at htail
    simp only [glPushBack, htail, Option.map_some', glTakeThrough_last hnd hlast]
    rw [if_pos hcont]

theorem glPushBack_wf {v : α} {s s' : GLState α} (h : glWF s)
    (hp : glPushBack v s = some s') : glWF s' := by
  rw [glPushBack_eq v s h] at hp
  obtain ⟨hnd, hbound, htail⟩ := h
  injection hp with hp
  subst hp
  refine ⟨?_, ?_, ?_⟩
  · rw [List.map_append]
    rw [List.nodup_append]
    refine ⟨hnd, by simp, ?_⟩
    intro a ha hb
    simp only [List.map_cons, List.map_nil, List.mem_singleton] at hb
    subst hb
    obtain ⟨d, hd, hda⟩ := List.mem_map.mp ha
    exact absurd (hda ▸ hbound d hd) (lt_irrefl _)
  · intro d hd
    rcases List.mem_append.mp hd with h₁ | h₂
    · exact Nat.lt_succ_of_lt (hbound d h₁)
    · simp only [List.mem_singleton] at h₂
      subst h₂
      exact Nat.lt_succ_self _
  · simp [List.getLast?_concat]

theorem glTryPopFront_wf [Inhabited α] {s : GLState α} {found : Bool} {v : α}
    {s' : GLState α} (h : glWF s) (hp : glTryPopFront s = some (found, v, s')) :
    glWF s' := by
  obtain ⟨hnd, hbound, htail⟩ := h
  rcases s with ⟨chain, tail, fresh⟩
  cases chain with
  | nil =>
    simp only [glTryPopFront] at hp
    split at hp
    · injection hp with hp
      obtain ⟨-, -, hs⟩ := Prod.mk.injEq .. ▸ hp
      cases hp
      exact ⟨hnd, hbound, htail⟩
    · cases hp
  | cons c rest =>
    simp only [glTryPopFront, Option.some.injEq, Prod.mk.injEq] at hp
    obtain ⟨-, -, hs⟩ := hp
    subst hs
    refine ⟨?_, ?_, ?_⟩
    · simp only [List.map_cons, List.nodup_cons] at hnd
      exact hnd.2
    · intro d hd
      exact hbound d (List.mem_cons_of_mem _ hd)
    · cases rest with
      | nil => simp
      | cons e rest' =>
        rw [List.getLast?_cons_cons] at htail
        simpa using htail

theorem lfIterCollect_dropWhile (l : List (LFCell α)) :
    lfIterCollect (l.dropWhile LFCell.mark) = (l.filter fun c => !c.mark).map LFCell.value := by
  induction l with
  | nil => simp [lfIterCollect]
  | cons c rest ih =>
    by_cases hm : c.mark = true
    · simp [List.dropWhile_cons, hm, List.filter_cons, ih]
    · simp only [Bool.not_eq_true] at hm
      simp [List.dropWhile_cons, hm, List.filter_cons, lfIterCollect, ih]

theorem lfRemoveGo_clean [DecidableEq α] (val : α) (l : List (LFCell α))
    (h : ∀ c ∈ l, c.mark = false) :
    lfRemoveGo val (some false) l =
      (l.filter fun c => !(c.value == val),
       (l.filter fun c => c.value == val).map fun c => ⟨c.value, true⟩) := by
  induction l with
  | nil => simp [lfRemoveGo]
  | cons c rest ih =>
    have hc : c.mark = false := h c (List.mem_cons_self c rest)
    have hrest : ∀ d ∈ rest, d.mark = false := fun d hd => h d (List.mem_cons_of_mem _ hd)
    by_cases hv : c.value = val
    · rw [lfRemoveGo, if_pos hv, if_pos ⟨hc, rfl⟩, ih hrest]
      simp [List.filter_cons, hv]
    · rw [lfRemoveGo, if_neg hv, hc, ih hrest]
      simp [List.filter_cons, hv]

theorem lfRemove_clean_eq [DecidableEq α] (val : α) (s : LFState α) (h : lfClean s) :
    lfRemove val s =
      (⟨s.sentinelMark, s.nodes.filter fun c => !(c.value == val)⟩,
       (s.nodes.filter fun c => c.value == val).map fun c => ⟨c.value, true⟩) := by
  obtain ⟨hm, hall⟩ := h
  rw [lfRemove, hm, lfRemoveGo_clean val _ hall]

theorem lfIterate_clean (s : LFState α) (h : lfClean s) :
    lfIterate s = s.nodes.map LFCell.value := by
  rcases s with ⟨m, nodes⟩
  obtain ⟨-, hall⟩ := h
  cases nodes with
  | nil => simp [lfIterate, lfIterCollect]
  | cons c rest =>
    have hr : rest.filter (fun c => !c.mark) = rest := by
      refine List.filter_eq_self.mpr ?_
      intro a ha
      simp [hall a (List.mem_cons_of_mem _ ha)]
    simp [lfIterate, lfIterCollect, lfIterCollect_dropWhile, hr]

theorem lfPopFront_sentinel {s : LFState α} {r : LFState α × LFCell α}
    (h : lfPopFront s = some r) : r.1.sentinelMark = false := by
  rcases s with ⟨m, nodes⟩
  cases m
  · cases nodes with
    | nil => simp [lfPopFront] at h
    | cons c rest =>
      by_cases hc : c.mark = true
      · simp [lfPopFront, hc] at h
      · simp only [Bool.not_eq_true] at hc
        simp only [lfPopFront, hc, Bool.false_eq_true, if_false, ite_false,
          Option.some.injEq] at h
        rw [← h]
  · simp [lfPopFront] at h

theorem lfPushBack_sentinel {v : α} {s s' : LFState α} (h : s.sentinelMark = false)
    (hp : lfPushBack v s = some s') : s'.sentinelMark = false := by
  rcases s with ⟨m, nodes⟩
  cases m
  · rcases hl : nodes.getLast? with - | c
    · simp only [lfPushBack, hl, Bool.false_eq_true, if_false, ite_false,
        Option.some.injEq] at hp
      rw [← hp]
    · by_cases hc : c.mark = true
      · simp [lfPushBack, hl, hc] at hp
      · simp only [Bool.not_eq_true] at hc
        simp only [lfPushBack, hl, hc, Bool.false_eq_true, if_false, ite_false,
          Option.some.injEq] at hp
        rw [← hp]
  · simp at h

theorem lfStep_sentinel [DecidableEq α] {op : ListOp α} {s : LFState α}
    {o : Obs α} {s' : LFState α} (h : s.sentinelMark = false)
    (hs : lfStep op s = some (o, s')) : s'.sentinelMark = false := by
  cases op with
  | size =>
    simp only [lfStep, Option.map_eq_some'] at hs
    obtain ⟨n, -, heq⟩ := hs
    cases heq
    exact h
  | front =>
    simp only [lfStep, Option.map_eq_some'] at hs
    obtain ⟨v, -, heq⟩ := hs
    cases heq
    exact h
  | back => cases hs
  | popFront =>
    simp only [lfStep, Option.map_eq_some'] at hs
    obtain ⟨r, hr, heq⟩ := hs
    cases heq
    exact lfPopFront_sentinel hr
  | pushBack v =>
    simp only [lfStep, Option.map_eq_some'] at hs
    obtain ⟨t, ht, heq⟩ := hs
    cases heq
    exact lfPushBack_sentinel h ht
  | removeOp v =>
    simp only [lfStep, Option.some.injEq, Prod.mk.injEq] at hs
    obtain ⟨-, heq⟩ := hs
    rw [← heq]
    exact h
  | iterate =>
    simp only [lfStep, Option.some.injEq, Prod.mk.injEq] at hs
    obtain ⟨-, heq⟩ := hs
    rw [← heq]
    exact h

theorem lfRunSeq_sentinel [DecidableEq α] (ops : List (ListOp α)) :
    ∀ (s : LFState α) (r : List (Obs α) × LFState α), s.sentinelMark = false →
      lfRunSeq ops s = some r → r.2.sentinelMark = false := by
  induction ops with
  | nil =>
    intro s r h hr
    simp only [lfRunSeq, Option.some.injEq] at hr
    rw [← hr]
    exact h
  | cons op ops ih =>
    intro s r h hr
    simp only [lfRunSeq, Option.bind_eq_some] at hr
    obtain ⟨⟨o, s₁⟩, hstep, hrest⟩ := hr
    simp only [Option.map_eq_some'] at hrest
    obtain ⟨t, ht, heq⟩ := hrest
    cases heq
    exact ih s₁ t (lfStep_sentinel h hstep) ht

/-- C8: the sentinel head node is never marked and never removed — starting
from a fresh list, after any sequence of interface operations that runs
without violating a precondition, the sentinel's outgoing link is still
unmarked (`!head_->is_marked()`): `pop_front` marks only the first real
node's link, `remove` marks only matching real nodes' links, and the
assignments/CAS that write the sentinel's link never propagate a mark
bit. -/
theorem sentinel_never_marked [DecidableEq α] (ops : List (ListOp α))
    (r : List (Obs α) × LFState α) (h : lfRunSeq ops (lfInit : LFState α) = some r) :
    r.2.sentinelMark = false :=
  lfRunSeq_sentinel ops lfInit r rfl h

theorem sentinel_never_marked_witness :
    (⟨false, [⟨3, false⟩]⟩ : LFState Nat).sentinelMark = false :=
  sentinel_never_marked [ListOp.pushBack 2, ListOp.popFront, ListOp.pushBack 3]
    ([Obs.unit, Obs.unit, Obs.unit], ⟨false, [⟨3, false⟩]⟩) (by decide)

theorem glStep_wf [DecidableEq α] [Inhabited α] {op : ListOp α} {s : GLState α}
    {o : Obs α} {s' : GLState α} (h : glWF s) (hs : glStep op s = some (o, s')) :
    glWF s' := by
  cases op with
  | size =>
    simp only [glStep, Option.some.injEq, Prod.mk.injEq] at hs
    obtain ⟨-, heq⟩ := hs
    rw [← heq]
    exact h
  | front =>
    simp only [glStep, Option.map_eq_some'] at hs
    obtain ⟨v, -, heq⟩ := hs
    cases heq
    exact h
  | back =>
    simp only [glStep, Option.map_eq_some'] at hs
    obtain ⟨v, -, heq⟩ := hs
    cases heq
    exact h
  | popFront =>
    simp only [glStep, Option.map_eq_some'] at hs
    obtain ⟨t, ht, heq⟩ := hs
    cases heq
    exact glPopFront_wf h ht
  | pushBack v =>
    simp only [glStep, Option.map_eq_some'] at hs
    obtain ⟨t, ht, heq⟩ := hs
    cases heq
    exact glPushBack_wf h ht
  | removeOp v =>
    simp only [glStep, Option.some.injEq, Prod.mk.injEq] at hs
    obtain ⟨-, heq⟩ := hs
    rw [← heq]
    exact glRemove_wf v s h
  | iterate =>
    simp only [glStep, Option.some.injEq, Prod.mk.injEq] at hs
    obtain ⟨-, heq⟩ := hs
    rw [← heq]
    exact h

theorem glRunSeq_wf [DecidableEq α] [Inhabited α] (ops : List (ListOp α)) :
    ∀ (s : GLState α) (r : List (Obs α) × GLState α), glWF s →
      glRunSeq ops s = some r → glWF r.2 := by
  induction ops with
  | nil =>
    intro s r h hr
    simp only [glRunSeq, Option.some.injEq] at hr
    rw [← hr]
    exact h
  | cons op ops ih =>
    intro s r h hr
    simp only [glRunSeq, Option.bind_eq_some] at hr
    obtain ⟨⟨o, s₁⟩, hstep, hrest⟩ := hr
    simp only [Option.map_eq_some'] at hrest
    obtain ⟨t, ht, heq⟩ := hrest
    cases heq
    exact ih s₁ t (glStep_wf h hstep) ht

theorem glInit_wf : glWF (glInit : GLState α) :=
  ⟨List.nodup_nil, by simp [glInit], rfl⟩

theorem glStepFull_wf [DecidableEq α] [Inhabited α] {op : GLOp α} {s s' : GLState α}
    (h : glWF s) (hs : glStepFull op s = some s') : glWF s' := by
  cases op with
  | size =>
    injection hs with hs
    rw [← hs]
    exact h
  | front =>
    simp only [glStepFull, Option.map_eq_some'] at hs
    obtain ⟨v, -, heq⟩ := hs
    rw [← heq]
    exact h
  | back =>
    simp only [glStepFull, Option.map_eq_some'] at hs
    obtain ⟨v, -, heq⟩ := hs
    rw [← heq]
    exact h
  | popFront => exact glPopFront_wf h hs
  | pushBack v => exact glPushBack_wf h hs
  | removeOp v =>
    injection hs with hs
    rw [← hs]
    exact glRemove_wf v s h
  | tryPopFront =>
    simp only [glStepFull, Option.map_eq_some'] at hs
    obtain ⟨⟨found, v, t⟩, ht, heq⟩ := hs
    rw [← heq]
    exact glTryPopFront_wf h ht
  | iterate =>
    injection hs with hs
    rw [← hs]
    exact h

theorem glRunFull_wf [DecidableEq α] [Inhabited α] (ops : List (GLOp α)) :
    ∀ (s s' : GLState α), glWF s → glRunFull ops s = some s' → glWF s' := by
  induction ops with
  | nil =>
    intro s s' h hr
    injection hr with hr
    rw [← hr]
    exact h
  | cons op ops ih =>
    intro s s' h hr
    simp only [glRunFull, Option.bind_eq_some] at hr
    obtain ⟨s₁, hstep, hrest⟩ := hr
    exact ih s₁ s' (glStepFull_wf h hstep) hrest

/-- C10: in `global_lock_impl`, after any sequence of operations from the
full public surface — `size`, `front`, `back`, `pop_front`, `push_back`,
`remove`, `try_pop_front` and iteration — run from a fresh list, `head_` is
null iff `tail_` is null, and when non-null, `tail_` is exactly the last
node reachable from `head_` (whose `next_` is therefore null): `pop_front`
and `try_pop_front` reset `tail_` when the chain empties, `push_back`
repoints it at the new node, and `remove` re-targets it at the last
surviving node exactly when the physically last node is removed. -/
theorem global_head_tail_invariant [DecidableEq α] [Inhabited α]
    (ops : List (GLOp α)) (s' : GLState α)
    (h : glRunFull ops (glInit : GLState α) = some s') :
    (s'.chain = [] ↔ s'.tail = none) ∧
    s'.tail = (s'.chain.getLast?).map GLNode.id := by
  obtain ⟨-, -, htail⟩ := glRunFull_wf ops glInit s' glInit_wf h
  refine ⟨?_, htail⟩
  rw [htail]
  constructor
  · intro hnil
    simp [hnil]
  · intro hnone
    simp only [Option.map_eq_none'] at hnone
    exact List.getLast?_eq_none_iff.mp hnone

theorem global_head_tail_invariant_witness :
    ((⟨[⟨2, 9⟩], some 2, 3⟩ : GLState Nat).chain = [] ↔
      (⟨[⟨2, 9⟩], some 2, 3⟩ : GLState Nat).tail = none) ∧
    (⟨[⟨2, 9⟩], some 2, 3⟩ : GLState Nat).tail =
      ((⟨[⟨2, 9⟩], some 2, 3⟩ : GLState Nat).chain.getLast?).map GLNode.id :=
  global_head_tail_invariant
    [GLOp.pushBack 5, GLOp.pushBack 7, GLOp.tryPopFront, GLOp.removeOp 7,
     GLOp.pushBack 9]
    ⟨[⟨2, 9⟩], some 2, 3⟩ (by decide)

theorem glDrain_nil [Inhabited α] (fresh : Nat) :
    glDrain (⟨[], none, fresh⟩ : GLState α) = [] := by
  rw [glDrain.eq_def]
  split
  · rename_i v s' heq
    simp [glTryPopFront] at heq
  · rfl

theorem glDrain_cons [Inhabited α] (c : GLNode α) (rest : List (GLNode α))
    (tail : Option Nat) (fresh : Nat) :
    glDrain ⟨c :: rest, tail, fresh⟩ =
      c.value :: glDrain ⟨rest, if rest.isEmpty then none else tail, fresh⟩ := by
  rw [glDrain.eq_def]
  split
  · rename_i v s' heq
    simp only [glTryPopFront, Option.some.injEq, Prod.mk.injEq, true_and] at heq
    obtain ⟨hv, hs⟩ := heq
    rw [hv, hs]
  · rename_i hne
    exact absurd rfl (hne c.value ⟨rest, if rest.isEmpty then none else tail, fresh⟩)

theorem glDrain_spec [Inhabited α] :
    ∀ (chain : List (GLNode α)) (tail : Option Nat) (fresh : Nat),
      (chain = [] → tail = none) →
      glDrain ⟨chain, tail, fresh⟩ = chain.map GLNode.value := by
  intro chain
  induction chain with
  | nil =>
    intro tail fresh h
    rw [h rfl, glDrain_nil]
    rfl
  | cons c rest ih =>
    intro tail fresh h
    rw [glDrain_cons, List.map_cons]
    congr 1
    refine ih _ fresh ?_
    intro hnil
    simp [hnil]

theorem glPushSeq_go [Inhabited α] :
    ∀ (S : List α) (s : GLState α), glWF s →
      ∃ s', List.foldlM (fun s v => glPushBack v s) s S = some s' ∧
        s'.chain.map GLNode.value = s.chain.map GLNode.value ++ S ∧ glWF s' := by
  intro S
  induction S with
  | nil =>
    intro s h
    exact ⟨s, rfl, by simp, h⟩
  | cons v S ih =>
    intro s h
    have hpush := glPushBack_eq v s h
    have hwf₁ : glWF (⟨s.chain ++ [⟨s.fresh, v⟩], some s.fresh, s.fresh + 1⟩ : GLState α) :=
      glPushBack_wf h hpush
    obtain ⟨s', hfold, hchain, hwf⟩ := ih _ hwf₁
    refine ⟨s', ?_, ?_, hwf⟩
    · rw [List.foldlM_cons, hpush]
      exact hfold
    · rw [hchain]
      simp

/-- C7: building a locked list from the value sequence `S` by repeated
`push_back` and then draining it by calling `try_pop_front` until it reports
not-found reproduces exactly `S`, in the original order. -/
theorem push_then_drain_roundtrip [Inhabited α] (S : List α) :
    (glPushSeq S).map glDrain = some S := by
  obtain ⟨s', hfold, hchain, hwf⟩ := glPushSeq_go S (glInit : GLState α) glInit_wf
  rw [glPushSeq, hfold, Option.map_some']
  congr 1
  obtain ⟨-, -, htail⟩ := hwf
  rcases s' with ⟨chain, tail, fresh⟩
  rw [glDrain_spec chain tail fresh ?_]
  · simpa using hchain
  · intro hnil
    simp only at htail
    rw [htail]
    simp [hnil]

theorem push_then_drain_roundtrip_witness :
    ((glPushSeq [1, 2, 3] : Option (GLState Nat)).map glDrain = some [1, 2, 3]) :=
  push_then_drain_roundtrip [1, 2, 3]

theorem glIterCollect_eq_map (l : List (GLNode α)) :
    glIterCollect l = l.map GLNode.value := by
  induction l with
  | nil => rfl
  | cons c rest ih => rw [glIterCollect, List.map_cons, ih]

theorem lfPushBack_clean_eq (v : α) (l : LFState α) (h : lfClean l) :
    lfPushBack v l = some ⟨false, l.nodes ++ [⟨v, false⟩]⟩ := by
  obtain ⟨hsm, hall⟩ := h
  rcases hlast : l.nodes.getLast? with - | c
  · have hnil : l.nodes = [] := List.getLast?_eq_none_iff.mp hlast
    simp [lfPushBack, hsm, hlast, hnil]
  · have hcm : c.mark = false := hall c (mem_of_getLast?_eq_some hlast)
    simp [lfPushBack, hsm, hlast, hcm]

theorem SimRel_abs {g : GLState α} {l : LFState α} (h : SimRel g l) :
    glAbs g = lfAbs l := by
  obtain ⟨-, ⟨-, hall⟩, hvals⟩ := h
  rw [glAbs, lfAbs, List.filter_eq_self.mpr (fun c hc => by simp [hall c hc]), hvals]

theorem SimRel_init : SimRel (glInit : GLState α) (lfInit : LFState α) :=
  ⟨glInit_wf, ⟨rfl, by simp [lfInit]⟩, rfl⟩

theorem step_sim [DecidableEq α] [Inhabited α] (op : ListOp α) (hop : op ≠ ListOp.back)
    (g : GLState α) (l : LFState α) (h : SimRel g l) :
    OptSim (glStep op g) (lfStep op l) := by
  obtain ⟨hwf, hclean, hvals⟩ := h
  have hsm : l.sentinelMark = false := hclean.1
  cases op with
  | back => exact absurd rfl hop
  | size =>
    have hlen : g.chain.length = l.nodes.length := by
      have := congrArg List.length hvals
      simpa using this
    simp only [glStep, lfStep, lfSize, hsm, Bool.false_eq_true, if_false, ite_false,
      Option.map_some']
    exact ⟨by rw [glSize, hlen], hwf, hclean, hvals⟩
  | front =>
    cases hl : l.nodes with
    | nil =>
      have hg : g.chain = [] := by
        rw [hl] at hvals
        simpa using hvals
      simp only [glStep, lfStep, glFront, lfFront, hsm, hl, hg, Bool.false_eq_true,
        if_false, ite_false, List.head?_nil, Option.map_none']
      trivial
    | cons c rest =>
      have hcm : c.mark = false := hclean.2 c (hl ▸ List.mem_cons_self c rest)
      rw [hl] at hvals
      rcases hg : g.chain with - | ⟨d, rest'⟩
      · rw [hg] at hvals
        simp at hvals
      · rw [hg] at hvals
        simp only [List.map_cons, List.cons.injEq] at hvals
        simp only [glStep, lfStep, glFront, lfFront, hsm, hl, hg, hcm,
          Bool.false_eq_true, if_false, ite_false, List.head?_cons, Option.map_some']
        refine ⟨by rw [hvals.1], hwf, hclean, ?_⟩
        rw [hg, hl]
        simp [hvals.1, hvals.2]
  | popFront =>
    cases hl : l.nodes with
    | nil =>
      have hg : g.chain = [] := by
        rw [hl] at hvals
        simpa using hvals
      simp only [glStep, lfStep, glPopFront, lfPopFront, hsm, hl, hg,
        Bool.false_eq_true, if_false, ite_false, Option.map_none']
      trivial
    | cons c rest =>
      have hcm : c.mark = false := hclean.2 c (hl ▸ List.mem_cons_self c rest)
      rcases hg : g.chain with - | ⟨d, rest'⟩
      · rw [hl, hg] at hvals
        simp at hvals
      · have hpop : glPopFront g = some ⟨rest', if rest'.isEmpty then none else g.tail, g.fresh⟩ := by
          simp [glPopFront, hg]
        simp only [glStep, lfStep, hpop, lfPopFront, hsm, hl, hcm,
          Bool.false_eq_true, if_false, ite_false, Option.map_some']
        refine ⟨rfl, glPopFront_wf hwf hpop, ⟨rfl, fun d hd => hclean.2 d (hl ▸ List.mem_cons_of_mem _ hd)⟩, ?_⟩
        rw [hl, hg] at hvals
        simp only [List.map_cons, List.cons.injEq] at hvals
        exact hvals.2
  | pushBack v =>
    have hgpush := glPushBack_eq v g hwf
    have hlpush := lfPushBack_clean_eq v l hclean
    simp only [glStep, lfStep, hgpush, hlpush, Option.map_some']
    refine ⟨rfl, glPushBack_wf hwf hgpush, ⟨rfl, ?_⟩, ?_⟩
    · intro d hd
      rcases List.mem_append.mp hd with h₁ | h₂
      · exact hclean.2 d h₁
      · simp only [List.mem_singleton] at h₂
        rw [h₂]
    · simp [hvals]
  | removeOp v =>
    have hlrm := lfRemove_clean_eq v l hclean
    simp only [glStep, lfStep, hlrm, Option.some.injEq]
    refine ⟨rfl, glRemove_wf v g hwf, ⟨hsm, ?_⟩, ?_⟩
    · intro d hd
      exact hclean.2 d (List.mem_of_mem_filter hd)
    · rw [glRemove_chain]
      have hfil : (List.map GLNode.value g.chain).filter (fun x => !(x == v)) =
          (List.map LFCell.value l.nodes).filter (fun x => !(x == v)) := by
        rw [hvals]
      rw [List.filter_map, List.filter_map] at hfil
      simpa [Function.comp] using hfil
  | iterate =>
    simp only [glStep, lfStep, Option.some.injEq]
    refine ⟨?_, hwf, hclean, hvals⟩
    rw [glIterCollect_eq_map, lfIterate_clean l hclean, hvals]

theorem runSeq_sim [DecidableEq α] [Inhabited α] (ops : List (ListOp α)) :
    ∀ (g : GLState α) (l : LFState α), (∀ op ∈ ops, op ≠ ListOp.back) →
      SimRel g l → RunSim (glRunSeq ops g) (lfRunSeq ops l) := by
  induction ops with
  | nil =>
    intro g l _hops h
    exact ⟨rfl, h⟩
  | cons op ops ih =>
    intro g l hops h
    have hstep := step_sim op (hops op (List.mem_cons_self op ops)) g l h
    rcases hg : glStep op g with - | ⟨o, g'⟩ <;> rcases hl : lfStep op l with - | ⟨o', l'⟩ <;>
      rw [hg, hl] at hstep
    · simp [glRunSeq, lfRunSeq, hg, hl, RunSim]
    · exact absurd hstep (by simp [OptSim])
    · exact absurd hstep (by simp [OptSim])
    · obtain ⟨ho, hrel⟩ := hstep
      have hrun := ih g' l' (fun op hm => hops op (List.mem_cons_of_mem _ hm)) hrel
      rcases hrg : glRunSeq ops g' with - | ⟨os, gf⟩ <;>
        rcases hrl : lfRunSeq ops l' with - | ⟨os', lf'⟩ <;> rw [hrg, hrl] at hrun
      · simp [glRunSeq, lfRunSeq, hg, hl, hrg, hrl, RunSim]
      · exact absurd hrun (by simp [RunSim])
      · exact absurd hrun (by simp [RunSim])
      · obtain ⟨hos, hrelf⟩ := hrun
        simp only [glRunSeq, lfRunSeq, hg, hl, hrg, hrl, Option.bind_eq_bind,
          Option.some_bind, Option.map_some']
        exact ⟨by rw [ho, hos], hrelf⟩

/-- C1 counterexample: the claimed shared interface includes `back`, but
`lock_free_impl` has no `back()` member, so the sequence
`push_back(5); back()` produces an observation on `global_lock_impl` (value
5) and no behaviour at all on `lock_free_impl`: the two implementations do
not produce the same observable results on every sequence over the claimed
interface. -/
theorem impls_differ_on_back :
    (glRunSeq [ListOp.pushBack 5, ListOp.back] (glInit : GLState Nat)).map
        (fun r => (r.1, glAbs r.2)) ≠
      (lfRunSeq [ListOp.pushBack 5, ListOp.back] (lfInit : LFState Nat)).map
        (fun r => (r.1, lfAbs r.2)) := by
  decide

/-- C1 amended: for every sequence of operations from the interface both
implementations actually provide — `size`, `front`, `pop_front`,
`push_back`, `remove` and forward iteration, i.e. everything except `back`
— executed sequentially from fresh lists, `lock_free_impl` and
`global_lock_impl` produce the same observable results: they fail the same
preconditions, return the same values, yield the same iteration sequences,
and leave the same logical list contents. -/
theorem impls_equiv_without_back [DecidableEq α] [Inhabited α] (ops : List (ListOp α))
    (hops : ListOp.back ∉ ops) :
    (glRunSeq ops (glInit : GLState α)).map (fun r => (r.1, glAbs r.2)) =
      (lfRunSeq ops (lfInit : LFState α)).map (fun r => (r.1, lfAbs r.2)) := by
  have hrun := runSeq_sim ops glInit lfInit
    (fun op hm => by rintro rfl; exact hops hm) SimRel_init
  rcases hg : glRunSeq ops (glInit : GLState α) with - | ⟨os, gf⟩ <;>
    rcases hl : lfRunSeq ops (lfInit : LFState α) with - | ⟨os', lf'⟩ <;>
      rw [hg, hl] at hrun
  · rfl
  · exact absurd hrun (by simp [RunSim])
  · exact absurd hrun (by simp [RunSim])
  · obtain ⟨hos, hrel⟩ := hrun
    simp only [Option.map_some']
    rw [hos, SimRel_abs hrel]

theorem impls_equiv_without_back_witness :
    (glRunSeq [ListOp.pushBack 1, ListOp.size, ListOp.iterate] (glInit : GLState Nat)).map
        (fun r => (r.1, glAbs r.2)) =
      (lfRunSeq [ListOp.pushBack 1, ListOp.size, ListOp.iterate] (lfInit : LFState Nat)).map
        (fun r => (r.1, lfAbs r.2)) :=
  impls_equiv_without_back _ (by decide)

/-- C2: the claim says `lock_free_impl::size` counts only non-marked nodes.
The code does not: line 126's `if (!cur->is_marked());` guards an empty
statement (stray semicolon), so `ret++` runs unconditionally.  On the state
whose chain is a marked node 7 followed by an unmarked node 8, `size`
returns 2, while only one reachable node is non-marked. -/
theorem size_counts_marked_node :
    lfSize (⟨false, [⟨7, true⟩, ⟨8, false⟩]⟩ : LFState Nat) = some 2 ∧
    lfAbs (⟨false, [⟨7, true⟩, ⟨8, false⟩]⟩ : LFState Nat) = [8] := by
  constructor <;> rfl

/-- C3 counterexample: iterating a list whose first physical node (value 7)
is marked yields `[7, 8]`, not `[8]`: `begin()` is `iterator_(head_->next_)`
with no mark check, so the marked first node's value is yielded, contrary to
the claim that iteration skips every marked node including a marked first
node. -/
theorem iterate_yields_marked_first_node :
    lfIterate (⟨false, [⟨7, true⟩, ⟨8, false⟩]⟩ : LFState Nat) = [7, 8] ∧
    lfAbs (⟨false, [⟨7, true⟩, ⟨8, false⟩]⟩ : LFState Nat) = [8] := by
  constructor
  · simp [lfIterate, lfIterCollect, List.dropWhile]
  · rfl

/-- C3 amended: iteration from `begin()` to `end()` yields the value of the
first physical node unconditionally (a marked first node is *not* skipped),
and after that only the values of non-marked nodes, in order: `operator++`
skips marked nodes but `begin()` performs no mark check. -/
theorem iterate_first_unchecked_then_skip_marked (s : LFState α) :
    lfIterate s =
      match s.nodes with
      | [] => []
      | c :: rest => c.value :: (rest.filter fun d => !d.mark).map LFCell.value := by
  rcases s with ⟨m, nodes⟩
  cases nodes with
  | nil => simp [lfIterate, lfIterCollect]
  | cons c rest => simp [lfIterate, lfIterCollect, lfIterCollect_dropWhile]

theorem iterate_first_unchecked_then_skip_marked_witness :
    lfIterate (⟨false, [⟨3, false⟩, ⟨4, true⟩, ⟨5, false⟩]⟩ : LFState Nat) = [3, 5] := by
  have h := iterate_first_unchecked_then_skip_marked
    (⟨false, [⟨3, false⟩, ⟨4, true⟩, ⟨5, false⟩]⟩ : LFState Nat)
  simpa using h

/-- C4 counterexample: `lock_free_impl` declares no `back()` member — its
public surface is `size`, `front`, `pop_front`, `push_back`, `remove`,
`begin`/`end` — so the `back` operation has no behaviour on the lock-free
list even when the list is non-empty, while the locked baseline's `back`
returns the last value. -/
theorem lockfree_back_absent :
    lfStep ListOp.back (⟨false, [⟨5, false⟩]⟩ : LFState Nat) = none ∧
    glStep ListOp.back (⟨[⟨0, 5⟩], some 0, 1⟩ : GLState Nat) =
      some (Obs.val 5, ⟨[⟨0, 5⟩], some 0, 1⟩) := by
  constructor <;> rfl

/-- C4 amended: only `global_lock_impl` provides `back()`; it reads the
cached `tail_` pointer directly (no traversal from the head), and on every
state where `tail_` points at the last reachable node — every reachable
state — of a non-empty list it returns that node's value. -/
theorem global_back_reads_cached_tail (s : GLState α)
    (htail : s.tail = (s.chain.getLast?).map GLNode.id) (hne : s.chain ≠ []) :
    glBack s = (s.chain.getLast?).map GLNode.value := by
  rcases h : s.chain.getLast? with - | c
  · exact absurd (List.getLast?_eq_none_iff.mp h) hne
  · simp [glBack, htail, h]

theorem global_back_reads_cached_tail_witness :
    glBack (⟨[⟨0, 5⟩], some 0, 1⟩ : GLState Nat) = some 5 := by
  have h := global_back_reads_cached_tail (⟨[⟨0, 5⟩], some 0, 1⟩ : GLState Nat)
    (by decide) (by decide)
  simpa using h

/-- C5: `try_pop_front()` on the empty list returns `(false, T())` and
leaves the state (including `tail_` and the allocator) untouched; on the
one-element list `[a]` it returns `(true, a)` and leaves the list empty
(`head_` and `tail_` both null). -/
theorem try_pop_front_empty_and_singleton [Inhabited α] (a : α) :
    glTryPopFront (glInit : GLState α) = some (false, default, glInit) ∧
    glTryPopFront (⟨[⟨0, a⟩], some 0, 1⟩ : GLState α) = some (true, a, ⟨[], none, 1⟩) := by
  constructor <;> rfl

theorem try_pop_front_empty_and_singleton_witness :
    glTryPopFront (glInit : GLState Nat) = some (false, default, glInit) ∧
    glTryPopFront (⟨[⟨0, 5⟩], some 0, 1⟩ : GLState Nat) = some (true, 5, ⟨[], none, 1⟩) :=
  try_pop_front_empty_and_singleton 5

/-- C6: on both implementations, `remove(x)` on a list with logical contents
`[a, x, b, x, c]` (each of `a`, `b`, `c` distinct from `x`) leaves
`[a, b, c]` in order — on the locked list the chain keeps nodes `a`, `b`,
`c` with `tail_` still the node of `c`; on the lock-free list both `x` nodes
are marked, unlinked and released — and a second `remove(x)` changes
nothing at all (it also releases nothing). -/
theorem remove_filters_and_idempotent [DecidableEq α] {a x b c : α}
    (ha : a ≠ x) (hb : b ≠ x) (hc : c ≠ x) :
    glRemove x (⟨[⟨0, a⟩, ⟨1, x⟩, ⟨2, b⟩, ⟨3, x⟩, ⟨4, c⟩], some 4, 5⟩ : GLState α) =
      ⟨[⟨0, a⟩, ⟨2, b⟩, ⟨4, c⟩], some 4, 5⟩ ∧
    glRemove x (⟨[⟨0, a⟩, ⟨2, b⟩, ⟨4, c⟩], some 4, 5⟩ : GLState α) =
      ⟨[⟨0, a⟩, ⟨2, b⟩, ⟨4, c⟩], some 4, 5⟩ ∧
    lfRemove x (⟨false, [⟨a, false⟩, ⟨x, false⟩, ⟨b, false⟩, ⟨x, false⟩, ⟨c, false⟩]⟩ : LFState α) =
      (⟨false, [⟨a, false⟩, ⟨b, false⟩, ⟨c, false⟩]⟩, [⟨x, true⟩, ⟨x, true⟩]) ∧
    lfRemove x (⟨false, [⟨a, false⟩, ⟨b, false⟩, ⟨c, false⟩]⟩ : LFState α) =
      (⟨false, [⟨a, false⟩, ⟨b, false⟩, ⟨c, false⟩]⟩, []) := by
  refine ⟨?_, ?_, ?_, ?_⟩ <;>
    simp [glRemove, glRemoveGo, lfRemove, lfRemoveGo, ha, hb, hc]

theorem remove_filters_and_idempotent_witness :
    glRemove 9 (⟨[⟨0, 1⟩, ⟨1, 9⟩, ⟨2, 2⟩, ⟨3, 9⟩, ⟨4, 3⟩], some 4, 5⟩ : GLState Nat) =
      ⟨[⟨0, 1⟩, ⟨2, 2⟩, ⟨4, 3⟩], some 4, 5⟩ ∧
    glRemove 9 (⟨[⟨0, 1⟩, ⟨2, 2⟩, ⟨4, 3⟩], some 4, 5⟩ : GLState Nat) =
      ⟨[⟨0, 1⟩, ⟨2, 2⟩, ⟨4, 3⟩], some 4, 5⟩ ∧
    lfRemove 9 (⟨false, [⟨1, false⟩, ⟨9, false⟩, ⟨2, false⟩, ⟨9, false⟩, ⟨3, false⟩]⟩ : LFState Nat) =
      (⟨false, [⟨1, false⟩, ⟨2, false⟩, ⟨3, false⟩]⟩, [⟨9, true⟩, ⟨9, true⟩]) ∧
    lfRemove 9 (⟨false, [⟨1, false⟩, ⟨2, false⟩, ⟨3, false⟩]⟩ : LFState Nat) =
      (⟨false, [⟨1, false⟩, ⟨2, false⟩, ⟨3, false⟩]⟩, []) :=
  remove_filters_and_idempotent (by decide) (by decide) (by decide)

/-- C9: the code contradicts its own destructor assertion.  Destroying a
freshly constructed (empty) `lock_free_impl` releases the sentinel — whose
`next_` link is never marked — so `node::~node` runs with `next_.get_mark()`
false and `assert(next_.get_mark())` fails; likewise every live (unmarked)
node still in the list at destruction, as in the one-element case. -/
theorem destruct_runs_node_dtor_on_unmarked_sentinel :
    lfDestructMarks (lfInit : LFState Nat) = [false] ∧
    lfDestructMarks (⟨false, [⟨5, false⟩]⟩ : LFState Nat) = [false, false] := by
  constructor <;> rfl

